import Mathlib

/-!
Verification development for the seller-apis repository.

`src/seller.py` synchronizes stock counts and prices between the Casio feed
(`watch_remnants`, rows with keys "Код" / "Количество" / "Цена") and the Ozon
catalog; `src/market.py` does the same for Yandex.Market.  The definitions
below are shallow embeddings of the pure/algorithmic parts of both modules:

* `pyInt` models Python `int(str)` (base 10: optional surrounding whitespace,
  optional single sign, digits possibly separated by single underscores;
  anything else raises `ValueError`, modelled as `none`);
* `price_conversion` models `seller.price_conversion`
  (`re.sub("[^0-9]", "", price.split(".")[0])`);
* `mapQuantity` models the quantity branch inside both `create_stocks`
  functions (lines 216-222 of seller.py, lines 197-203 of market.py);
* `create_stocks` models `seller.create_stocks`: it returns both the produced
  stock list and the final state of the caller's `offer_ids` list, because the
  Python function removes matched ids from that list in place;
* `create_prices` models `seller.create_prices` (price kept as a string);
* `market_create_prices` models `market.create_prices`, whose
  `int(price_conversion(...))` call can raise (modelled as `none`);
* `divide` models `seller.divide` (shared by both modules);
* `ozonLoop` / `yandexLoop` model the two `get_offer_ids` pagination loops,
  with an oracle standing for the remote catalog and explicit fuel standing
  for the `while True:` loop;
* `main_sync` models the data flow of `seller.main` lines 392-397, where the
  same `offer_ids` list object is passed to `create_stocks` (which mutates it)
  and then to `create_prices`.
-/

/-- One row of the Casio feed: the fields read from the keys "Код"
(sku), "Количество" (raw quantity) and "Цена" (raw price).  `pandas` cell
values go through `str(...)` before they are compared in the Python code, so
the fields are modelled as strings. -/
structure FeedRecord where
  kod : String
  kolichestvo : String
  tsena : String
deriving DecidableEq

/-- One element of the list built by `seller.create_stocks`:
the dict `{"offer_id": ..., "stock": ...}`. -/
structure StockUpdate where
  offer_id : String
  stock : Int
deriving DecidableEq

/-- One element of the list built by `seller.create_prices`: the dict with
keys `auto_action_enabled`, `currency_code`, `offer_id`, `old_price`,
`price`. -/
structure PriceUpdate where
  auto_action_enabled : String
  currency_code : String
  offer_id : String
  old_price : String
  price : String
deriving DecidableEq

/-- One element of the list built by `market.create_prices`: the dict
`{"id": ..., "price": {"value": int(...), "currencyId": "RUR"}}`. -/
structure MarketPrice where
  id : String
  value : Int
  currencyId : String
deriving DecidableEq

/-- ASCII whitespace stripped by Python `int(str)`. -/
def isPySpace (c : Char) : Bool :=
  c = ' ' || c = '\t' || c = '\n' || c = '\r' || c = '\x0b' || c = '\x0c'

/-- Strip leading and trailing whitespace, as Python `int(str)` does. -/
def pyStrip (cs : List Char) : List Char :=
  ((cs.dropWhile isPySpace).reverse.dropWhile isPySpace).reverse

/-- Numeric value of an ASCII digit. -/
def digitVal (c : Char) : Nat := c.toNat - 48

/-- Digits after the first one in a Python integer literal: further digits,
with single underscores allowed between digits only. -/
def pyDigitsRest (acc : Nat) : List Char → Option Nat
  | [] => some acc
  | c :: cs =>
    if c.isDigit then pyDigitsRest (acc * 10 + digitVal c) cs
    else if c = '_' then
      match cs with
      | [] => none
      | d :: ds => if d.isDigit then pyDigitsRest (acc * 10 + digitVal d) ds else none
    else none

/-- The digit part of a Python integer literal: nonempty, base 10. -/
def pyDigits : List Char → Option Nat
  | [] => none
  | c :: cs => if c.isDigit then pyDigitsRest (digitVal c) cs else none

/-- Python `int(s)` for a string `s` in base 10: `some n` on success, `none`
when `ValueError` would be raised. -/
def pyInt (s : String) : Option Int :=
  match pyStrip s.toList with
  | '+' :: rest => (pyDigits rest).map (fun n => (n : Int))
  | '-' :: rest => (pyDigits rest).map (fun n => -(n : Int))
  | rest => (pyDigits rest).map (fun n => (n : Int))

/-- The quantity mapping inlined in both `create_stocks` functions
(seller.py lines 216-222): the exact token ">10" gives 100, the exact token
"1" gives 0, anything else goes through `int(...)`. -/
def mapQuantity (count : String) : Option Int :=
  if count = ">10" then some 100
  else if count = "1" then some 0
  else pyInt count

/-- Python `price.split(".")`, character by character. -/
def pySplitDot : List Char → List (List Char)
  | [] => [[]]
  | c :: cs =>
    if c = '.' then [] :: pySplitDot cs
    else
      match pySplitDot cs with
      | [] => [[c]]
      | g :: gs => (c :: g) :: gs

/-- `seller.price_conversion` (lines 265-284):
`re.sub("[^0-9]", "", price.split(".")[0])`.  The regular expression class
`[^0-9]` removes every character that is not an ASCII digit. -/
def price_conversion (price : String) : String :=
  String.mk (((pySplitDot price.toList).headD []).filter Char.isDigit)

/-- The spec's wording for the price normalizer (spec 4.1): take the substring
before the first decimal point, then keep only the ASCII digits. -/
def normalizeSpec (price : String) : String :=
  String.mk ((price.toList.takeWhile (fun c => c ≠ '.')).filter Char.isDigit)

/-- Replace the price field of a feed record, leaving sku and quantity
unchanged (used to state that `create_stocks` never reads the price). -/
def setTsena (t : String) (w : FeedRecord) : FeedRecord :=
  ⟨w.kod, w.kolichestvo, t⟩

/-- The loop of `seller.create_stocks` (lines 213-224), with the Python
`stocks` accumulator and the in-place mutation of `offer_ids` made explicit:
the result is `(stocks, offer_ids)` at the end of the first loop, or `none`
when `int(...)` raises `ValueError` on a matched record's quantity.
`offer_ids.remove(x)` removes the first occurrence, i.e. `List.erase`. -/
def create_stocks_aux : List FeedRecord → List String → List StockUpdate →
    Option (List StockUpdate × List String)
  | [], offer_ids, stocks => some (stocks, offer_ids)
  | w :: ws, offer_ids, stocks =>
    if w.kod ∈ offer_ids then
      match mapQuantity w.kolichestvo with
      | none => none
      | some st =>
        create_stocks_aux ws (offer_ids.erase w.kod) (stocks ++ [⟨w.kod, st⟩])
    else create_stocks_aux ws offer_ids stocks

/-- `seller.create_stocks` (lines 193-227).  The first component of the
result is the returned `stocks` list (matched records first, then a zero
stock for every id still in `offer_ids`); the second component is the final
content of the caller's `offer_ids` list, which the function mutates in
place. -/
def create_stocks (watch_remnants : List FeedRecord) (offer_ids : List String) :
    Option (List StockUpdate × List String) :=
  match create_stocks_aux watch_remnants offer_ids [] with
  | none => none
  | some (stocks, rest) => some (stocks ++ rest.map (fun i => ⟨i, 0⟩), rest)

/-- The spec's wording for the matched phase of `reconcile` (spec 4.4, step
1): walk the feed in order, emit one StockUpdate per record whose sku is in
the remaining set, and consume that sku from the remaining set; also return
the remaining set left after the phase. -/
def matchedPhaseSpec : List FeedRecord → List String →
    Option (List StockUpdate × List String)
  | [], offer_ids => some ([], offer_ids)
  | w :: ws, offer_ids =>
    if w.kod ∈ offer_ids then
      match mapQuantity w.kolichestvo with
      | none => none
      | some st =>
        match matchedPhaseSpec ws (offer_ids.erase w.kod) with
        | none => none
        | some (m, rest) => some (⟨w.kod, st⟩ :: m, rest)
    else matchedPhaseSpec ws offer_ids

/-- The price dict built for one matched record by `seller.create_prices`
(lines 254-260). -/
def sellerPriceOf (w : FeedRecord) : PriceUpdate :=
  ⟨"UNKNOWN", "RUB", w.kod, "0", price_conversion w.tsena⟩

/-- `seller.create_prices` (lines 230-262): one price dict per feed record
whose sku is in `offer_ids`, in feed order.  `offer_ids` is not mutated, and
nothing can raise: the converted price is kept as a (possibly empty)
string. -/
def create_prices : List FeedRecord → List String → List PriceUpdate
  | [], _ => []
  | w :: ws, offer_ids =>
    if w.kod ∈ offer_ids then sellerPriceOf w :: create_prices ws offer_ids
    else create_prices ws offer_ids

/-- `market.create_prices` (lines 236-274): like the seller variant but the
price goes through `int(price_conversion(...))`, which raises `ValueError`
(modelled `none`) when the converted string is not a valid integer literal —
aborting the whole call. -/
def market_create_prices : List FeedRecord → List String → Option (List MarketPrice)
  | [], _ => some []
  | w :: ws, offer_ids =>
    if w.kod ∈ offer_ids then
      match pyInt (price_conversion w.tsena) with
      | none => none
      | some v =>
        match market_create_prices ws offer_ids with
        | none => none
        | some rest => some (⟨w.kod, v, "RUR"⟩ :: rest)
    else market_create_prices ws offer_ids

/-- The chunking of `seller.divide` (lines 312-313):
`for i in range(0, len(lst), n): yield lst[i : i + n]`. -/
def chunkList (n : Nat) : List α → List (List α)
  | [] => []
  | c :: cs =>
    if h2 : n = 0 then []
    else (c :: cs).take n :: chunkList n ((c :: cs).drop n)
termination_by l => l.length
decreasing_by
  have hn : 0 < n := Nat.pos_of_ne_zero h2
  simp only [List.length_drop, List.length_cons]
  omega

/-- `seller.divide` (lines 287-313): raises `ValueError` (modelled `none`)
when `n <= 0`, otherwise yields the chunks `lst[0:n], lst[n:2n], ...`. -/
def divide (lst : List α) (n : Int) : Option (List (List α)) :=
  if n ≤ 0 then none else some (chunkList n.toNat lst)

/-- One response of the Ozon pagination oracle (`seller.get_product_list`):
the page's offer ids, the reported `total`, and the `last_id` cursor. -/
structure OzonPage where
  items : List String
  total : Nat
  last_id : String

/-- The `while True:` loop of `seller.get_offer_ids` (lines 71-80), with an
oracle for the remote catalog and explicit fuel: extend the accumulated
product list with the page's items, stop when the reported `total` equals the
accumulated length, otherwise continue from the page's `last_id`. -/
def ozonLoop (fetch : String → OzonPage) : Nat → String → List String → Option (List String)
  | 0, _, _ => none
  | Nat.succ fuel, lastId, acc =>
    let p := fetch lastId
    if p.total = (acc ++ p.items).length then some (acc ++ p.items)
    else ozonLoop fetch fuel p.last_id (acc ++ p.items)

/-- `seller.get_offer_ids` (lines 47-80): run the pagination loop from the
empty cursor and the empty accumulator. -/
def seller_get_offer_ids (fetch : String → OzonPage) (fuel : Nat) : Option (List String) :=
  ozonLoop fetch fuel "" []

/-- The cursor and accumulated items after `k` iterations of the Ozon loop. -/
def ozonState (fetch : String → OzonPage) : Nat → String × List String
  | 0 => ("", [])
  | Nat.succ k =>
    let s := ozonState fetch k
    let p := fetch s.1
    (p.last_id, s.2 ++ p.items)

/-- The Ozon stop condition holds at iteration `k`: the page fetched at state
`k` reports a `total` equal to the item count accumulated through it. -/
def ozonStopsAt (fetch : String → OzonPage) (k : Nat) : Prop :=
  (fetch (ozonState fetch k).1).total = (ozonState fetch (k + 1)).2.length

/-- One response of the Yandex pagination oracle (`market.get_product_list`):
the page's `shopSku` entries and the `nextPageToken` cursor (empty string for
the falsy "no next page"). -/
structure YandexPage where
  entries : List String
  nextPageToken : String

/-- The `while True:` loop of `market.get_offer_ids` (lines 159-170): extend
the accumulated entries, stop when the next-page token is falsy, otherwise
continue from that token. -/
def yandexLoop (fetch : String → YandexPage) : Nat → String → List String → Option (List String)
  | 0, _, _ => none
  | Nat.succ fuel, page, acc =>
    let p := fetch page
    if p.nextPageToken = "" then some (acc ++ p.entries)
    else yandexLoop fetch fuel p.nextPageToken (acc ++ p.entries)

/-- `market.get_offer_ids` (lines 139-170): run the pagination loop from the
empty cursor; the final comprehension extracting `shopSku` is the identity on
the entries as modelled. -/
def market_get_offer_ids (fetch : String → YandexPage) (fuel : Nat) : Option (List String) :=
  yandexLoop fetch fuel "" []

/-- The cursor and accumulated entries after `k` iterations of the Yandex
loop. -/
def yandexState (fetch : String → YandexPage) : Nat → String × List String
  | 0 => ("", [])
  | Nat.succ k =>
    let s := yandexState fetch k
    let p := fetch s.1
    (p.nextPageToken, s.2 ++ p.entries)

/-- The Yandex stop condition holds at iteration `k`: the page fetched at
state `k` carries an empty next-page token. -/
def yandexStopsAt (fetch : String → YandexPage) (k : Nat) : Prop :=
  (fetch (yandexState fetch k).1).nextPageToken = ""

/-- The data flow of `seller.main` lines 392-397: `create_stocks` is called
on the enumerated `offer_ids` list and mutates it in place, and
`create_prices` is then called on that same, now mutated, list. -/
def main_sync (watch_remnants : List FeedRecord) (offer_ids : List String) :
    Option (List StockUpdate × List PriceUpdate) :=
  match create_stocks watch_remnants offer_ids with
  | none => none
  | some (stocks, rest) => some (stocks, create_prices watch_remnants rest)

theorem pySplitDot_ne_nil (cs : List Char) : pySplitDot cs ≠ [] := by
  cases cs with
  | nil => simp [pySplitDot]
  | cons c cs =>
    simp only [pySplitDot]
    split
    · simp
    · cases h : pySplitDot cs <;> simp

theorem pySplitDot_headD (cs : List Char) :
    (pySplitDot cs).headD [] = cs.takeWhile (fun c => c ≠ '.') := by
  induction cs with
  | nil => simp [pySplitDot]
  | cons c cs ih =>
    simp only [pySplitDot, List.takeWhile]
    by_cases h : c = '.'
    · simp [h]
    · simp only [h, if_neg, decide_not]
      cases hs : pySplitDot cs with
      | nil => exact absurd hs (pySplitDot_ne_nil cs)
      | cons g gs =>
        rw [hs] at ih
        simp only [List.headD] at ih ⊢
        simp [h, ih]

theorem price_conversion_eq_normalizeSpec (s : String) :
    price_conversion s = normalizeSpec s := by
  unfold price_conversion normalizeSpec
  rw [pySplitDot_headD]

theorem price_conversion_digits (s : String) :
    ∀ c ∈ (price_conversion s).data, c.isDigit = true := by
  intro c hc
  simp only [price_conversion, String.mk] at hc
  exact (List.mem_filter.mp hc).2

theorem create_stocks_aux_eq (feed : List FeedRecord) :
    ∀ (ids : List String) (acc : List StockUpdate),
    create_stocks_aux feed ids acc =
      (matchedPhaseSpec feed ids).map (fun p => (acc ++ p.1, p.2)) := by
  induction feed with
  | nil => intro ids acc; simp [create_stocks_aux, matchedPhaseSpec]
  | cons w ws ih =>
    intro ids acc
    by_cases h : w.kod ∈ ids
    · cases mq : mapQuantity w.kolichestvo with
      | none => simp [create_stocks_aux, matchedPhaseSpec, h, mq]
      | some st =>
        simp only [create_stocks_aux, matchedPhaseSpec, h, mq, if_true]
        rw [ih]
        cases hm : matchedPhaseSpec ws (ids.erase w.kod) with
        | none => simp
        | some p => cases p with | mk m r => simp
    · simp [create_stocks_aux, matchedPhaseSpec, h, ih]

theorem create_stocks_eq (feed : List FeedRecord) (ids : List String) :
    create_stocks feed ids =
      (matchedPhaseSpec feed ids).map
        (fun p => (p.1 ++ p.2.map (fun i => ⟨i, 0⟩), p.2)) := by
  simp only [create_stocks, create_stocks_aux_eq]
  cases hm : matchedPhaseSpec feed ids with
  | none => simp
  | some p => cases p with | mk m r => simp

theorem matched_rest_sublist {feed : List FeedRecord} :
    ∀ {ids : List String} {m : List StockUpdate} {rest : List String},
    matchedPhaseSpec feed ids = some (m, rest) → rest.Sublist ids := by
  induction feed with
  | nil =>
    intro ids m rest h
    simp only [matchedPhaseSpec, Option.some_inj, Prod.mk.injEq] at h
    exact h.2 ▸ List.Sublist.refl ids
  | cons w ws ih =>
    intro ids m rest h
    by_cases hw : w.kod ∈ ids
    · cases mq : mapQuantity w.kolichestvo with
      | none => simp [matchedPhaseSpec, hw, mq] at h
      | some st =>
        simp only [matchedPhaseSpec, hw, mq, if_true] at h
        cases hm : matchedPhaseSpec ws (ids.erase w.kod) with
        | none => rw [hm] at h; simp at h
        | some p =>
          cases p with | mk m0 r0 =>
          rw [hm] at h
          simp only [Option.some_inj, Prod.mk.injEq] at h
          exact (h.2 ▸ ih hm).trans (List.erase_sublist w.kod ids)
    · simp only [matchedPhaseSpec, hw, if_false] at h
      exact ih h

theorem matched_perm {feed : List FeedRecord} :
    ∀ {ids : List String} {m : List StockUpdate} {rest : List String},
    matchedPhaseSpec feed ids = some (m, rest) →
    ids.Perm (m.map StockUpdate.offer_id ++ rest) := by
  induction feed with
  | nil =>
    intro ids m rest h
    simp only [matchedPhaseSpec, Option.some_inj, Prod.mk.injEq] at h
    rw [← h.1, ← h.2]
    simp
  | cons w ws ih =>
    intro ids m rest h
    by_cases hw : w.kod ∈ ids
    · cases mq : mapQuantity w.kolichestvo with
      | none => simp [matchedPhaseSpec, hw, mq] at h
      | some st =>
        simp only [matchedPhaseSpec, hw, mq, if_true] at h
        cases hm : matchedPhaseSpec ws (ids.erase w.kod) with
        | none => rw [hm] at h; simp at h
        | some p =>
          cases p with | mk m0 r0 =>
          rw [hm] at h
          simp only [Option.some_inj, Prod.mk.injEq] at h
          rw [← h.1, ← h.2]
          exact (List.perm_cons_erase hw).trans (List.Perm.cons w.kod (ih hm))
    · simp only [matchedPhaseSpec, hw, if_false] at h
      exact ih h

theorem matched_rest_filter {feed : List FeedRecord} :
    ∀ {ids : List String} {m : List StockUpdate} {rest : List String},
    ids.Nodup → matchedPhaseSpec feed ids = some (m, rest) →
    rest = ids.filter (fun i => decide (i ∉ feed.map FeedRecord.kod)) := by
  induction feed with
  | nil =>
    intro ids m rest _ h
    simp only [matchedPhaseSpec, Option.some_inj, Prod.mk.injEq] at h
    simp [← h.2]
  | cons w ws ih =>
    intro ids m rest hnd h
    by_cases hw : w.kod ∈ ids
    · cases mq : mapQuantity w.kolichestvo with
      | none => simp [matchedPhaseSpec, hw, mq] at h
      | some st =>
        simp only [matchedPhaseSpec, hw, mq, if_true] at h
        cases hm : matchedPhaseSpec ws (ids.erase w.kod) with
        | none => rw [hm] at h; simp at h
        | some p =>
          cases p with | mk m0 r0 =>
          rw [hm] at h
          simp only [Option.some_inj, Prod.mk.injEq] at h
          have hrec := ih (hnd.erase w.kod) hm
          rw [← h.2, hrec, hnd.erase_eq_filter w.kod, List.filter_filter]
          apply List.filter_congr
          intro x _
          by_cases hxw : x = w.kod <;>
            by_cases hxm : x ∈ ws.map FeedRecord.kod <;>
              simp [hxw, hxm, List.mem_cons]
    · cases mq : mapQuantity w.kolichestvo with
      | none =>
        simp only [matchedPhaseSpec, hw, if_false] at h
        have hrec := ih hnd h
        rw [hrec]
        apply List.filter_congr
        intro x hx
        have hne : x ≠ w.kod := fun hxe => hw (hxe ▸ hx)
        simp [List.mem_cons, hne]
      | some st =>
        simp only [matchedPhaseSpec, hw, if_false] at h
        have hrec := ih hnd h
        rw [hrec]
        apply List.filter_congr
        intro x hx
        have hne : x ≠ w.kod := fun hxe => hw (hxe ▸ hx)
        simp [List.mem_cons, hne]

theorem matched_stock_src {feed : List FeedRecord} :
    ∀ {ids : List String} {m : List StockUpdate} {rest : List String},
    matchedPhaseSpec feed ids = some (m, rest) →
    ∀ u ∈ m, ∃ w, w ∈ feed ∧ u.offer_id = w.kod ∧
      mapQuantity w.kolichestvo = some u.stock := by
  induction feed with
  | nil =>
    intro ids m rest h u hu
    simp only [matchedPhaseSpec, Option.some_inj, Prod.mk.injEq] at h
    rw [← h.1] at hu
    simp at hu
  | cons w ws ih =>
    intro ids m rest h u hu
    by_cases hw : w.kod ∈ ids
    · cases mq : mapQuantity w.kolichestvo with
      | none => simp [matchedPhaseSpec, hw, mq] at h
      | some st =>
        simp only [matchedPhaseSpec, hw, mq, if_true] at h
        cases hm : matchedPhaseSpec ws (ids.erase w.kod) with
        | none => rw [hm] at h; simp at h
        | some p =>
          cases p with | mk m0 r0 =>
          rw [hm] at h
          simp only [Option.some_inj, Prod.mk.injEq] at h
          rw [← h.1] at hu
          rcases List.mem_cons.mp hu with hu1 | hu2
          · exact ⟨w, List.mem_cons_self w ws, by rw [hu1], by rw [hu1]; exact mq⟩
          · rcases ih hm u hu2 with ⟨w0, hw0, he, hq⟩
            exact ⟨w0, List.mem_cons_of_mem w hw0, he, hq⟩
    · simp only [matchedPhaseSpec, hw, if_false] at h
      rcases ih h u hu with ⟨w0, hw0, he, hq⟩
      exact ⟨w0, List.mem_cons_of_mem w hw0, he, hq⟩

theorem create_prices_eq_filter_map (feed : List FeedRecord) (ids : List String) :
    create_prices feed ids =
      (feed.filter (fun w => decide (w.kod ∈ ids))).map sellerPriceOf := by
  induction feed with
  | nil => simp [create_prices]
  | cons w ws ih =>
    by_cases hw : w.kod ∈ ids
    · simp [create_prices, hw, ih]
    · simp [create_prices, hw, ih]

theorem create_prices_nil_of_no_match {feed : List FeedRecord} {ids : List String}
    (h : ∀ w ∈ feed, w.kod ∉ ids) : create_prices feed ids = [] := by
  rw [create_prices_eq_filter_map]
  have : feed.filter (fun w => decide (w.kod ∈ ids)) = [] :=
    List.filter_eq_nil_iff.mpr (fun w hw => by simpa using h w hw)
  rw [this, List.map_nil]

theorem mem_create_prices {feed : List FeedRecord} {ids : List String}
    {p : PriceUpdate} (h : p ∈ create_prices feed ids) :
    p.offer_id ∈ feed.map FeedRecord.kod := by
  rw [create_prices_eq_filter_map] at h
  rcases List.mem_map.mp h with ⟨w, hw, he⟩
  have hwf : w ∈ feed := List.mem_of_mem_filter hw
  rw [← he]
  exact List.mem_map.mpr ⟨w, hwf, rfl⟩

theorem market_create_prices_none {feed : List FeedRecord} {ids : List String}
    {w : FeedRecord} (hwf : w ∈ feed) (hwi : w.kod ∈ ids)
    (hp : pyInt (price_conversion w.tsena) = none) :
    market_create_prices feed ids = none := by
  induction feed with
  | nil => simp at hwf
  | cons u us ih =>
    rcases List.mem_cons.mp hwf with h1 | h2
    · rw [← h1]
      simp [market_create_prices, hwi, hp]
    · by_cases hu : u.kod ∈ ids
      · cases mp : pyInt (price_conversion u.tsena) with
        | none => simp [market_create_prices, hu, mp]
        | some v =>
          simp only [market_create_prices, hu, mp, if_true]
          rw [ih h2]
      · simp only [market_create_prices, hu, if_false]
        exact ih h2

theorem create_stocks_aux_setTsena (feed : List FeedRecord) :
    ∀ (t : String) (ids : List String) (acc : List StockUpdate),
    create_stocks_aux (feed.map (setTsena t)) ids acc = create_stocks_aux feed ids acc := by
  induction feed with
  | nil => intro t ids acc; simp [create_stocks_aux]
  | cons w ws ih =>
    intro t ids acc
    simp only [List.map_cons, create_stocks_aux, setTsena]
    by_cases hw : w.kod ∈ ids
    · cases mq : mapQuantity w.kolichestvo with
      | none => simp [hw, mq]
      | some st => simp [hw, mq, ih]
    · simp [hw, ih]

theorem create_stocks_setTsena (feed : List FeedRecord) (t : String) (ids : List String) :
    create_stocks (feed.map (setTsena t)) ids = create_stocks feed ids := by
  simp only [create_stocks, create_stocks_aux_setTsena]

theorem mapQuantity_shape {s : String} {v : Int} (h : mapQuantity s = some v) :
    v = 100 ∨ v = 0 ∨ pyInt s = some v := by
  by_cases h1 : s = ">10"
  · simp [mapQuantity, h1] at h
    exact Or.inl h.symm
  · by_cases h2 : s = "1"
    · simp [mapQuantity, h1, h2] at h
      exact Or.inr (Or.inl h.symm)
    · simp only [mapQuantity, h1, h2, if_false] at h
      exact Or.inr (Or.inr h)

theorem chunkList_flatten {α : Type} {n : Nat} (hn : n ≠ 0) :
    ∀ l : List α, (chunkList n l).flatten = l := by
  have key : ∀ (k : Nat) (l : List α), l.length ≤ k → (chunkList n l).flatten = l := by
    intro k
    induction k with
    | zero =>
      intro l hl
      have h0 : l = [] := List.length_eq_zero.mp (Nat.le_zero.mp hl)
      rw [h0]
      simp [chunkList]
    | succ k ih =>
      intro l hl
      cases l with
      | nil => simp [chunkList]
      | cons c cs =>
        rw [chunkList, dif_neg hn, List.flatten_cons, ih]
        · exact List.take_append_drop n (c :: cs)
        · simp only [List.length_drop, List.length_cons]
          simp only [List.length_cons] at hl
          omega
  exact fun l => key l.length l (Nat.le_refl _)

theorem chunkList_length {α : Type} {n : Nat} (hn : n ≠ 0) :
    ∀ l : List α, (chunkList n l).length = (l.length + n - 1) / n := by
  have key : ∀ (k : Nat) (l : List α), l.length ≤ k →
      (chunkList n l).length = (l.length + n - 1) / n := by
    intro k
    induction k with
    | zero =>
      intro l hl
      have h0 : l = [] := List.length_eq_zero.mp (Nat.le_zero.mp hl)
      rw [h0]
      simp only [chunkList, List.length_nil, Nat.zero_add]
      exact (Nat.div_eq_of_lt (by omega)).symm
    | succ k ih =>
      intro l hl
      cases l with
      | nil =>
        simp only [chunkList, List.length_nil, Nat.zero_add]
        exact (Nat.div_eq_of_lt (by omega)).symm
      | cons c cs =>
        rw [chunkList, dif_neg hn]
        simp only [List.length_cons]
        rw [ih ((c :: cs).drop n)
          (by simp only [List.length_drop, List.length_cons]; simp only [List.length_cons] at hl; omega)]
        simp only [List.length_drop, List.length_cons]
        by_cases hcmp : n ≤ cs.length + 1
        · have h1 : cs.length + 1 - n + n - 1 = cs.length := by omega
          have h2 : cs.length + 1 + n - 1 = cs.length + n := by omega
          rw [h1, h2, Nat.add_div_right _ (Nat.pos_of_ne_zero hn)]
        · have h1 : cs.length + 1 - n = 0 := by omega
          rw [h1]
          have h2 : (0 + n - 1) / n = 0 := Nat.div_eq_of_lt (by omega)
          rw [h2]
          have h3 : (cs.length + 1 + n - 1) / n = 1 := by
            apply Nat.div_eq_of_lt_le
            · omega
            · omega
          omega
  exact fun l => key l.length l (Nat.le_refl _)

theorem chunkList_mem_bounds {α : Type} {n : Nat} (hn : n ≠ 0) :
    ∀ l : List α, ∀ c ∈ chunkList n l, c ≠ [] ∧ c.length ≤ n := by
  have key : ∀ (k : Nat) (l : List α), l.length ≤ k →
      ∀ c ∈ chunkList n l, c ≠ [] ∧ c.length ≤ n := by
    intro k
    induction k with
    | zero =>
      intro l hl
      have h0 : l = [] := List.length_eq_zero.mp (Nat.le_zero.mp hl)
      rw [h0]
      simp [chunkList]
    | succ k ih =>
      intro l hl c hc
      cases l with
      | nil => simp [chunkList] at hc
      | cons a as =>
        rw [chunkList, dif_neg hn] at hc
        rcases List.mem_cons.mp hc with h1 | h2
        · constructor
          · rw [h1]
            intro hcon
            have := congrArg List.length hcon
            simp only [List.length_take, List.length_nil, List.length_cons] at this
            omega
          · rw [h1, List.length_take]
            omega
        · exact ih ((a :: as).drop n)
            (by simp only [List.length_drop, List.length_cons]
                simp only [List.length_cons] at hl
                omega) c h2
  exact fun l => key l.length l (Nat.le_refl _)

theorem chunkList_dropLast {α : Type} {n : Nat} (hn : n ≠ 0) :
    ∀ l : List α, ∀ c ∈ (chunkList n l).dropLast, c.length = n := by
  have key : ∀ (k : Nat) (l : List α), l.length ≤ k →
      ∀ c ∈ (chunkList n l).dropLast, c.length = n := by
    intro k
    induction k with
    | zero =>
      intro l hl
      have h0 : l = [] := List.length_eq_zero.mp (Nat.le_zero.mp hl)
      rw [h0]
      simp [chunkList]
    | succ k ih =>
      intro l hl c hc
      cases l with
      | nil => simp [chunkList] at hc
      | cons a as =>
        rw [chunkList, dif_neg hn] at hc
        by_cases hd : (a :: as).drop n = []
        · rw [hd] at hc
          simp [chunkList] at hc
        · have hlen : (a :: as).length > n := by
            by_contra hcon
            exact hd (List.drop_eq_nil_iff.mpr (by omega))
          have hrest : chunkList n ((a :: as).drop n) ≠ [] := by
            cases he : (a :: as).drop n with
            | nil => exact absurd he hd
            | cons d ds =>
              rw [chunkList, dif_neg hn]
              simp
          cases hr : chunkList n ((a :: as).drop n) with
          | nil => exact absurd hr hrest
          | cons r rs =>
            rw [hr, List.dropLast_cons₂] at hc
            rcases List.mem_cons.mp hc with h1 | h2
            · rw [h1, List.length_take]
              simp only [List.length_cons] at hlen ⊢
              omega
            · rw [← hr] at h2
              exact ih ((a :: as).drop n)
                (by simp only [List.length_drop, List.length_cons]
                    simp only [List.length_cons] at hl
                    omega) c h2
  exact fun l => key l.length l (Nat.le_refl _)

theorem ozonLoop_mono (fetch : String → OzonPage) :
    ∀ (f1 f2 : Nat), f1 ≤ f2 → ∀ (lid : String) (acc r : List String),
    ozonLoop fetch f1 lid acc = some r → ozonLoop fetch f2 lid acc = some r := by
  intro f1
  induction f1 with
  | zero => intro f2 _ lid acc r h; simp [ozonLoop] at h
  | succ f1 ih =>
    intro f2 hle lid acc r h
    cases f2 with
    | zero => omega
    | succ f2 =>
      simp only [ozonLoop] at h ⊢
      by_cases hstop : (fetch lid).total = (acc ++ (fetch lid).items).length
      · rw [if_pos hstop] at h ⊢
        exact h
      · rw [if_neg hstop] at h ⊢
        exact ih f2 (by omega) _ _ r h

theorem ozonLoop_stops (fetch : String → OzonPage) :
    ∀ (d k : Nat), ozonStopsAt fetch (k + d) →
    ∃ r, ozonLoop fetch (d + 1) (ozonState fetch k).1 (ozonState fetch k).2 = some r := by
  intro d
  induction d with
  | zero =>
    intro k hstop
    refine ⟨(ozonState fetch (k + 1)).2, ?_⟩
    simp only [ozonStopsAt, ozonState, Nat.add_zero] at hstop
    simp only [ozonLoop, ozonState]
    rw [if_pos hstop]
  | succ d ih =>
    intro k hstop
    by_cases hnow : (fetch (ozonState fetch k).1).total
        = ((ozonState fetch k).2 ++ (fetch (ozonState fetch k).1).items).length
    · exact ⟨_, by simp only [ozonLoop]; rw [if_pos hnow]⟩
    · have hstep : ozonStopsAt fetch ((k + 1) + d) := by
        have : (k + 1) + d = k + (d + 1) := by omega
        rw [this]
        exact hstop
      rcases ih (k + 1) hstep with ⟨r, hr⟩
      refine ⟨r, ?_⟩
      simp only [ozonLoop]
      rw [if_neg hnow]
      simp only [ozonState] at hr
      exact hr

theorem ozon_terminates (fetch : String → OzonPage) (k : Nat) (h : ozonStopsAt fetch k) :
    ∃ r, ∀ f, k < f → seller_get_offer_ids fetch f = some r := by
  have h0 : ozonStopsAt fetch (0 + k) := by rw [Nat.zero_add]; exact h
  rcases ozonLoop_stops fetch k 0 h0 with ⟨r, hr⟩
  simp only [ozonState] at hr
  refine ⟨r, fun f hf => ?_⟩
  exact ozonLoop_mono fetch (k + 1) f (by omega) "" [] r hr

theorem yandexLoop_mono (fetch : String → YandexPage) :
    ∀ (f1 f2 : Nat), f1 ≤ f2 → ∀ (page : String) (acc r : List String),
    yandexLoop fetch f1 page acc = some r → yandexLoop fetch f2 page acc = some r := by
  intro f1
  induction f1 with
  | zero => intro f2 _ page acc r h; simp [yandexLoop] at h
  | succ f1 ih =>
    intro f2 hle page acc r h
    cases f2 with
    | zero => omega
    | succ f2 =>
      simp only [yandexLoop] at h ⊢
      by_cases hstop : (fetch page).nextPageToken = ""
      · rw [if_pos hstop] at h ⊢
        exact h
      · rw [if_neg hstop] at h ⊢
        exact ih f2 (by omega) _ _ r h

theorem yandexLoop_stops (fetch : String → YandexPage) :
    ∀ (d k : Nat), yandexStopsAt fetch (k + d) →
    ∃ r, yandexLoop fetch (d + 1) (yandexState fetch k).1 (yandexState fetch k).2 = some r := by
  intro d
  induction d with
  | zero =>
    intro k hstop
    refine ⟨(yandexState fetch (k + 1)).2, ?_⟩
    simp only [yandexStopsAt, yandexState, Nat.add_zero] at hstop
    simp only [yandexLoop, yandexState]
    rw [if_pos hstop]
  | succ d ih =>
    intro k hstop
    by_cases hnow : (fetch (yandexState fetch k).1).nextPageToken = ""
    · exact ⟨_, by simp only [yandexLoop]; rw [if_pos hnow]⟩
    · have hstep : yandexStopsAt fetch ((k + 1) + d) := by
        have : (k + 1) + d = k + (d + 1) := by omega
        rw [this]
        exact hstop
      rcases ih (k + 1) hstep with ⟨r, hr⟩
      refine ⟨r, ?_⟩
      simp only [yandexLoop]
      rw [if_neg hnow]
      simp only [yandexState] at hr
      exact hr

theorem yandex_terminates (fetch : String → YandexPage) (k : Nat)
    (h : yandexStopsAt fetch k) :
    ∃ r, ∀ f, k < f → market_get_offer_ids fetch f = some r := by
  have h0 : yandexStopsAt fetch (0 + k) := by rw [Nat.zero_add]; exact h
  rcases yandexLoop_stops fetch k 0 h0 with ⟨r, hr⟩
  simp only [yandexState] at hr
  refine ⟨r, fun f hf => ?_⟩
  exact yandexLoop_mono fetch (k + 1) f (by omega) "" [] r hr

/-- C1: refuted as stated — this records the actual behaviour.  In
`seller.main`, `create_stocks` removes every matched offer id from the shared
`offer_ids` list before `create_prices` runs on that same list, so for a
duplicate-free enumerated list the sync sequence emits NO price update at
all: every feed record whose sku was enumerated has been consumed, and the
remaining ids match no feed record.  The closed conjunct evaluates the
sequence on a matched record: one stock update, zero price updates. -/
theorem C1_main_sequence_emits_no_prices :
    (∀ (feed : List FeedRecord) (ids : List String), ids.Nodup →
      ∀ (stocks : List StockUpdate) (prices : List PriceUpdate),
      main_sync feed ids = some (stocks, prices) → prices = []) ∧
    main_sync [⟨"123", "5", "1000.00 руб."⟩] ["123"] =
      some ([⟨"123", 5⟩], []) := by
  constructor
  · intro feed ids hnd stocks prices h
    simp only [main_sync] at h
    cases hc : create_stocks feed ids with
    | none => rw [hc] at h; simp at h
    | some pr =>
      cases pr with | mk st rest =>
      rw [hc] at h
      simp only [Option.some_inj, Prod.mk.injEq] at h
      rw [← h.2]
      rw [create_stocks_eq] at hc
      cases hm : matchedPhaseSpec feed ids with
      | none => rw [hm] at hc; simp at hc
      | some p2 =>
        cases p2 with | mk m r =>
        rw [hm] at hc
        simp only [Option.map_some', Option.some_inj, Prod.mk.injEq] at hc
        have hr : rest = ids.filter (fun i => decide (i ∉ feed.map FeedRecord.kod)) := by
          rw [← hc.2]
          exact matched_rest_filter hnd hm
        apply create_prices_nil_of_no_match
        intro w hw hmem
        rw [hr] at hmem
        have hnotin := (List.mem_filter.mp hmem).2
        simp only [decide_eq_true_eq] at hnotin
        exact hnotin (List.mem_map.mpr ⟨w, hw, rfl⟩)
  · decide

theorem C1_witness : ([] : List PriceUpdate) = [] :=
  C1_main_sequence_emits_no_prices.1 [⟨"123", "5", "1000.00 руб."⟩] ["123"]
    (by decide) [⟨"123", (5 : Int)⟩] [] (by decide)

/-- C2 counterexample: with the same matched records, `market.create_prices`
on a record whose price normalizes to the empty string returns `none` —
Python raises `ValueError` and the whole price list is lost, including the
following valid record, instead of skipping only the bad one — while
`seller.create_prices` does not skip the bad record either: it emits a price
update whose price is the empty string. -/
theorem C2_counterexample :
    market_create_prices [⟨"1", "5", ""⟩, ⟨"2", "5", "1000.00"⟩] ["1", "2"] = none ∧
    create_prices [⟨"1", "5", ""⟩, ⟨"2", "5", "1000.00"⟩] ["1", "2"] =
      [⟨"UNKNOWN", "RUB", "1", "0", ""⟩, ⟨"UNKNOWN", "RUB", "2", "0", "1000"⟩] := by
  constructor
  · decide
  · decide

/-- C2 (amended): in market.py an unparseable normalized price for any
matched record aborts the entire `create_prices` call; in seller.py
`create_prices` never fails or skips — it emits exactly one price update per
matched record, bad price included; and stock building is independent of the
price field: `create_stocks` is unchanged under any rewrite of every
record's price. -/
theorem C2_amended_price_failure_semantics :
    (∀ (feed : List FeedRecord) (ids : List String) (w : FeedRecord),
      w ∈ feed → w.kod ∈ ids → pyInt (price_conversion w.tsena) = none →
      market_create_prices feed ids = none) ∧
    (∀ (feed : List FeedRecord) (ids : List String),
      create_prices feed ids =
        (feed.filter (fun w => decide (w.kod ∈ ids))).map sellerPriceOf) ∧
    (∀ (feed : List FeedRecord) (t : String) (ids : List String),
      create_stocks (feed.map (setTsena t)) ids = create_stocks feed ids) :=
  ⟨fun _ _ _ hwf hwi hp => market_create_prices_none hwf hwi hp,
   create_prices_eq_filter_map,
   fun feed t ids => create_stocks_setTsena feed t ids⟩

theorem C2_witness : market_create_prices [⟨"1", "5", ""⟩] ["1"] = none :=
  C2_amended_price_failure_semantics.1 [⟨"1", "5", ""⟩] ["1"] ⟨"1", "5", ""⟩
    (by decide) (by decide) (by decide)

/-- C3: for a duplicate-free enumerated offer-id list, whenever
`create_stocks` returns normally the offer-id column of its output is a
permutation of the input ids with no duplicates — exactly one StockUpdate
per distinct enumerated id, none missing; the closed conjunct shows a second
feed row with an already-matched sku being ignored (first occurrence wins:
quantity 5, not 7). -/
theorem C3_exactly_one_stock_update_per_id :
    (∀ (feed : List FeedRecord) (ids : List String) (stocks : List StockUpdate)
        (rest : List String), ids.Nodup →
      create_stocks feed ids = some (stocks, rest) →
      (stocks.map StockUpdate.offer_id).Perm ids ∧
        (stocks.map StockUpdate.offer_id).Nodup) ∧
    create_stocks [⟨"A", "5", "p"⟩, ⟨"A", "7", "q"⟩] ["A"] =
      some ([⟨"A", 5⟩], []) := by
  constructor
  · intro feed ids stocks rest hnd h
    rw [create_stocks_eq] at h
    cases hm : matchedPhaseSpec feed ids with
    | none => rw [hm] at h; simp at h
    | some p =>
      cases p with | mk m r =>
      rw [hm] at h
      simp only [Option.map_some', Option.some_inj, Prod.mk.injEq] at h
      have hperm := matched_perm hm
      have hmap : stocks.map StockUpdate.offer_id = m.map StockUpdate.offer_id ++ r := by
        rw [← h.1, List.map_append, List.map_map]
        have hcomp : (StockUpdate.offer_id ∘ fun i => (⟨i, 0⟩ : StockUpdate)) = id := by
          funext i
          rfl
        rw [hcomp, List.map_id]
      rw [hmap]
      exact ⟨hperm.symm, (hperm.symm.nodup_iff).mpr hnd⟩
  · decide

theorem C3_witness :
    ((([⟨"A", (5 : Int)⟩] : List StockUpdate).map StockUpdate.offer_id).Perm ["A"]) ∧
    (([⟨"A", (5 : Int)⟩] : List StockUpdate).map StockUpdate.offer_id).Nodup :=
  C3_exactly_one_stock_update_per_id.1 [⟨"A", "5", "p"⟩, ⟨"A", "7", "q"⟩] ["A"]
    [⟨"A", (5 : Int)⟩] [] (by decide) (by decide)

/-- C4 counterexample: the feed quantity token "-5" is neither ">10" nor
"1", so it goes through `int(...)`, which parses it to -5; `create_stocks`
emits a StockUpdate with the negative count -5, refuting "the count is never
negative, for any raw quantity token". -/
theorem C4_counterexample :
    create_stocks [⟨"123", "-5", "p"⟩] ["123"] = some ([⟨"123", -5⟩], []) ∧
    (⟨"123", -5⟩ : StockUpdate).stock < 0 := by
  constructor
  · decide
  · decide

/-- C4 (amended): every StockUpdate produced by a normally-returning
`create_stocks` has a non-negative count, PROVIDED every feed quantity token
that parses as an integer parses to a non-negative one; the code imposes no
clamping of its own (a token parsing to a negative integer is passed
through, as the counterexample shows). -/
theorem C4_amended_nonnegative_counts
    (feed : List FeedRecord) (ids : List String) (stocks : List StockUpdate)
    (rest : List String)
    (hq : ∀ w ∈ feed, ∀ v : Int, pyInt w.kolichestvo = some v → 0 ≤ v)
    (h : create_stocks feed ids = some (stocks, rest)) :
    ∀ u ∈ stocks, 0 ≤ u.stock := by
  rw [create_stocks_eq] at h
  cases hm : matchedPhaseSpec feed ids with
  | none => rw [hm] at h; simp at h
  | some p =>
    cases p with | mk m r =>
    rw [hm] at h
    simp only [Option.map_some', Option.some_inj, Prod.mk.injEq] at h
    intro u hu
    rw [← h.1] at hu
    rcases List.mem_append.mp hu with h1 | h2
    · rcases matched_stock_src hm u h1 with ⟨w, hwf, _, hmq⟩
      rcases mapQuantity_shape hmq with h100 | h0 | hpi
      · rw [h100]; omega
      · rw [h0]
      · exact hq w hwf u.stock hpi
    · rcases List.mem_map.mp h2 with ⟨i, _, he⟩
      rw [← he]

theorem C4_witness : (0 : Int) ≤ (⟨"123", (7 : Int)⟩ : StockUpdate).stock :=
  C4_amended_nonnegative_counts [⟨"123", "7", "p"⟩] ["123"] [⟨"123", (7 : Int)⟩] []
    (by intro w hw v hv
        have hw2 : w = ⟨"123", "7", "p"⟩ := by simpa using hw
        rw [hw2] at hv
        have h7 : pyInt "7" = some 7 := by decide
        rw [h7] at hv
        injection hv with hv2
        omega)
    (by decide) ⟨"123", (7 : Int)⟩ (by decide)

/-- C5: the quantity mapping applies its rules in order with first match
winning: the exact token ">10" maps to 100, the exact token "1" maps to 0,
and any other token is handed to base-10 integer parsing (Python `int`,
whose failure is the per-record ValidationError): "7" parses to 7, "abc"
fails; the first two rules are exact string matches, not numeric comparisons
("11" gives 11, not 100; "01" gives 1, not 0). -/
theorem C5_mapQuantity_rules :
    mapQuantity ">10" = some 100 ∧ mapQuantity "1" = some 0 ∧
    (∀ s : String, s ≠ ">10" → s ≠ "1" → mapQuantity s = pyInt s) ∧
    mapQuantity "7" = some 7 ∧ mapQuantity "abc" = none ∧
    mapQuantity "11" = some 11 ∧ mapQuantity "01" = some 1 := by
  refine ⟨by decide, by decide, ?_, by decide, by decide, by decide, by decide⟩
  intro s h1 h2
  simp [mapQuantity, h1, h2]

theorem C5_witness : mapQuantity "5" = pyInt "5" :=
  C5_mapQuantity_rules.2.2.1 "5" (by decide) (by decide)

/-- C6: `price_conversion` returns the substring before the first decimal
point with every non-ASCII-digit character stripped (it coincides with the
spec's normalizer on every input), its output consists only of ASCII digits,
and the spec's examples hold: "5'990.00 руб." gives "5990", "" gives "". -/
theorem C6_price_conversion_spec :
    (∀ s : String, price_conversion s = normalizeSpec s) ∧
    (∀ s : String, ∀ c ∈ (price_conversion s).data, c.isDigit = true) ∧
    price_conversion "5\x27990.00 руб." = "5990" ∧
    price_conversion "" = "" := by
  refine ⟨price_conversion_eq_normalizeSpec, price_conversion_digits, ?_, by decide⟩
  decide

theorem C6_witness : ('9' : Char).isDigit = true :=
  C6_price_conversion_spec.2.1 "5\x27990.00 руб." '9' (by decide)

/-- C7: on normal return the stock list of `create_stocks` is exactly the
spec's matched phase output (feed order) followed by one count-0 StockUpdate
per remaining offer id, in the remaining set's order; and for a
duplicate-free enumerated list no remaining id ever carries a price update,
whatever offer-id collection `create_prices` is given. -/
theorem C7_two_phase_output_ordering
    (feed : List FeedRecord) (ids : List String) (stocks : List StockUpdate)
    (rest : List String) (h : create_stocks feed ids = some (stocks, rest)) :
    (∃ m, matchedPhaseSpec feed ids = some (m, rest) ∧
      stocks = m ++ rest.map (fun i => ⟨i, 0⟩)) ∧
    (ids.Nodup → ∀ (ids2 : List String) (p : PriceUpdate),
      p ∈ create_prices feed ids2 → p.offer_id ∉ rest) := by
  rw [create_stocks_eq] at h
  cases hm : matchedPhaseSpec feed ids with
  | none => rw [hm] at h; simp at h
  | some pr =>
    cases pr with | mk m r =>
    rw [hm] at h
    simp only [Option.map_some', Option.some_inj, Prod.mk.injEq] at h
    constructor
    · refine ⟨m, ?_, ?_⟩
      · rw [← h.2]
      · rw [← h.1, ← h.2]
    · intro hnd ids2 p hp hmem
      have hr : rest = ids.filter (fun i => decide (i ∉ feed.map FeedRecord.kod)) := by
        rw [← h.2]
        exact matched_rest_filter hnd hm
      rw [hr] at hmem
      have hnotin := (List.mem_filter.mp hmem).2
      simp only [decide_eq_true_eq] at hnotin
      exact hnotin (mem_create_prices hp)

theorem C7_witness :
    (⟨"UNKNOWN", "RUB", "B", "0", "2"⟩ : PriceUpdate).offer_id ∉ (["A"] : List String) :=
  (C7_two_phase_output_ordering [⟨"B", "2", "2"⟩] ["A", "B"]
    [⟨"B", 2⟩, ⟨"A", 0⟩] ["A"] (by decide)).2 (by decide) ["B"]
    ⟨"UNKNOWN", "RUB", "B", "0", "2"⟩ (by decide)

/-- C8: for a positive batch size, `divide` yields ceil(N/B) contiguous
chunks whose concatenation reproduces the input list, each chunk non-empty
and of size at most B, every chunk but possibly the last of size exactly B,
and the empty list yields zero chunks (hence zero submit calls in the
dispatch loops that iterate over the chunks). -/
theorem C8_divide_chunks {α : Type} (lst : List α) (n : Int) (hn : 0 < n) :
    ∃ cs, divide lst n = some cs ∧
      cs.flatten = lst ∧
      cs.length = (lst.length + n.toNat - 1) / n.toNat ∧
      (∀ c ∈ cs, c ≠ [] ∧ c.length ≤ n.toNat) ∧
      (∀ c ∈ cs.dropLast, c.length = n.toNat) ∧
      (lst = [] → cs = []) := by
  have hn0 : n.toNat ≠ 0 := by
    intro hcon
    rw [Int.toNat_eq_zero] at hcon
    omega
  refine ⟨chunkList n.toNat lst, ?_, chunkList_flatten hn0 lst, chunkList_length hn0 lst,
    chunkList_mem_bounds hn0 lst, chunkList_dropLast hn0 lst, ?_⟩
  · rw [divide, if_neg (by omega : ¬ n ≤ 0)]
  · intro hemp
    rw [hemp]
    simp [chunkList]

theorem C8_witness : divide [10, 20, 30] (2 : Int) ≠ none := by
  rcases C8_divide_chunks [10, 20, 30] (2 : Int) (by decide) with ⟨cs, h1, _⟩
  rw [h1]
  simp

/-- C9: whenever the pagination oracle satisfies the protocol's termination
condition — the marketplace-specific stop condition holds at some iteration
(accumulated count equals the reported total for Ozon; empty next-page token
for Yandex) — catalog enumeration terminates: from any fuel beyond that
iteration the loop returns one and the same finite offer-id list. -/
theorem C9_enumeration_terminates :
    (∀ (fetch : String → OzonPage) (k : Nat), ozonStopsAt fetch k →
      ∃ r, ∀ f, k < f → seller_get_offer_ids fetch f = some r) ∧
    (∀ (fetch : String → YandexPage) (k : Nat), yandexStopsAt fetch k →
      ∃ r, ∀ f, k < f → market_get_offer_ids fetch f = some r) :=
  ⟨ozon_terminates, yandex_terminates⟩

theorem C9_witness :
    seller_get_offer_ids (fun _ => ⟨["a"], 1, "x"⟩) 1 ≠ none ∧
    market_get_offer_ids (fun _ => ⟨["b"], ""⟩) 1 ≠ none := by
  constructor
  · rcases C9_enumeration_terminates.1 (fun _ => ⟨["a"], 1, "x"⟩) 0 rfl with ⟨r, hr⟩
    rw [hr 1 (by omega)]
    simp
  · rcases C9_enumeration_terminates.2 (fun _ => ⟨["b"], ""⟩) 0 rfl with ⟨r, hr⟩
    rw [hr 1 (by omega)]
    simp

/-- C10: `create_stocks` leaves the caller's `offer_ids` list (the second
component of the model's result) holding a sublist of the original — the
unmatched ids in their original relative order — and, for a duplicate-free
enumerated list, exactly the enumerated ids whose value matches no feed
record's sku. -/
theorem C10_offer_ids_mutated_in_place
    (feed : List FeedRecord) (ids : List String) (stocks : List StockUpdate)
    (rest : List String) (h : create_stocks feed ids = some (stocks, rest)) :
    rest.Sublist ids ∧
    (ids.Nodup → rest = ids.filter (fun i => decide (i ∉ feed.map FeedRecord.kod))) := by
  rw [create_stocks_eq] at h
  cases hm : matchedPhaseSpec feed ids with
  | none => rw [hm] at h; simp at h
  | some pr =>
    cases pr with | mk m r =>
    rw [hm] at h
    simp only [Option.map_some', Option.some_inj, Prod.mk.injEq] at h
    constructor
    · rw [← h.2]
      exact matched_rest_sublist hm
    · intro hnd
      rw [← h.2]
      exact matched_rest_filter hnd hm

theorem C10_witness :
    (["A", "C"] : List String).Sublist ["A", "B", "C"] ∧
    (["A", "C"] : List String) =
      ["A", "B", "C"].filter
        (fun i => decide (i ∉ ([⟨"B", "2", "p"⟩] : List FeedRecord).map FeedRecord.kod)) :=
  ⟨(C10_offer_ids_mutated_in_place [⟨"B", "2", "p"⟩] ["A", "B", "C"]
      [⟨"B", 2⟩, ⟨"A", 0⟩, ⟨"C", 0⟩] ["A", "C"] (by decide)).1,
   (C10_offer_ids_mutated_in_place [⟨"B", "2", "p"⟩] ["A", "B", "C"]
      [⟨"B", 2⟩, ⟨"A", 0⟩, ⟨"C", 0⟩] ["A", "C"] (by decide)).2 (by decide)⟩
